import Mathlib

/-!
Verification of the cherry reward-shaping primitives and the Logger
episode-statistics helpers, shallowly embedded in Lean 4.

The embedding covers:
* `discount_rewards` and `generalized_advantage_estimate`, translated from
  `src/tests/rewards_tests.py` (list-based reference implementations of the
  reward shaping algorithms; the backward Python loops become `List.foldr`
  over the zipped inputs, with the mutable loop state carried explicitly).
* `discount` and `generalized_advantage`, modelled from the spec (sections
  4.2 and 4.3) since `cherry/rewards.py` itself is not available: they render
  the spec's indexed "process t from T-1 down to 0" description directly as
  fuel-indexed recursion over positions.
* `Logger._episodes_length_rewards` and `Logger._episodes_stats`, translated
  from `src/cherry/envs/logger_wrapper.py`.

Machine reals are modelled by `ℚ`; episode lengths by `ℕ`.
-/

namespace Cherry

/-- One step of the backward loop of `discount_rewards`
(src/tests/rewards_tests.py lines 30-34): the state is the running return `R`
paired with the accumulated output list; `discounted.insert(0, R)` becomes a
cons.  The pair component is `(reward, done)` for the timestep. -/
def dstep (gamma : ℚ) (rd : ℚ × Bool) (acc : ℚ × List ℚ) : ℚ × List ℚ :=
  let R := acc.1
  let R := if rd.2 then 0 else R
  let R := rd.1 + gamma * R
  (R, R :: acc.2)

/-- Translation of `discount_rewards` (src/tests/rewards_tests.py lines
23-35).  The Python loop runs `t` from `len(rewards)-1` down to `0`, so it is
a right fold over the zipped `(rewards, dones)` sequence, starting from
`R = bootstrap` and an empty output list. -/
def discount_rewards (gamma : ℚ) (rewards : List ℚ) (dones : List Bool)
    (bootstrap : ℚ) : List ℚ :=
  ((rewards.zip dones).foldr (dstep gamma) (bootstrap, [])).2

/-- Modelled from the spec: `cherry/rewards.py` is not under src/, so
`discount` follows spec section 4.2 word for word: "process timesteps from
T-1 down to 0.  Maintain a running return R, initialized to bootstrap.  At
each step t: if dones[t] is true, reset R to zero before folding in the
current reward.  Then set R = rewards[t] + gamma * R.  Record R as
returns[t]."  The fuel argument is the next position to process plus one, so
positions are visited from T-1 down to 0. -/
def discountGo (gamma : ℚ) (rewards : List ℚ) (dones : List Bool) :
    ℕ → ℚ → List ℚ → List ℚ
  | 0, _, out => out
  | t + 1, R, out =>
      let R := if dones.getD t false then 0 else R
      let R := rewards.getD t 0 + gamma * R
      discountGo gamma rewards dones t R (R :: out)

/-- Modelled from the spec: the `discount` operation of spec section 4.2,
running the reverse pass `discountGo` over all T positions. -/
def discount (gamma : ℚ) (rewards : List ℚ) (dones : List Bool)
    (bootstrap : ℚ) : List ℚ :=
  discountGo gamma rewards dones rewards.length bootstrap []

/-- The output list of the backward fold has one entry per processed
timestep, on top of whatever the initial accumulator already held. -/
theorem dfold_snd_length (gamma : ℚ) (l : List (ℚ × Bool)) (b : ℚ)
    (L : List ℚ) :
    ((l.foldr (dstep gamma) (b, L)).2).length = l.length + L.length := by
  induction l with
  | nil => simp
  | cons p l ih => simp [dstep, ih]; omega

/-- The initial output accumulator is just appended to the produced list. -/
theorem dfold_state_append (gamma : ℚ) (l : List (ℚ × Bool)) (b : ℚ)
    (L : List ℚ) :
    l.foldr (dstep gamma) (b, L) =
      ((l.foldr (dstep gamma) (b, [])).1,
        (l.foldr (dstep gamma) (b, [])).2 ++ L) := by
  induction l with
  | nil => simp
  | cons p l ih => simp [List.foldr_cons, ih, dstep]

/-- The running return after the whole fold is the head of the output list
(or the bootstrap if nothing was processed). -/
theorem dfold_fst_headD (gamma : ℚ) (l : List (ℚ × Bool)) (b : ℚ) :
    (l.foldr (dstep gamma) (b, [])).1 =
      ((l.foldr (dstep gamma) (b, [])).2).headD b := by
  cases l with
  | nil => rfl
  | cons p l => simp [dstep]

theorem discount_rewards_nil (gamma : ℚ) (ds : List Bool) (b : ℚ) :
    discount_rewards gamma [] ds b = [] := rfl

/-- Unfolding `discount_rewards` at the front of the lists: the running
return folded into position 0 is the return recorded at position 1 (or the
bootstrap when the tail is empty), zeroed when `done` is set. -/
theorem discount_rewards_cons (gamma r b : ℚ) (d : Bool) (rs : List ℚ)
    (ds : List Bool) :
    discount_rewards gamma (r :: rs) (d :: ds) b =
      (r + gamma * (if d then 0
        else (discount_rewards gamma rs ds b).headD b)) ::
      discount_rewards gamma rs ds b := by
  have h := dfold_fst_headD gamma (rs.zip ds) b
  simp only [discount_rewards, List.zip_cons_cons, List.foldr_cons, dstep, ← h]

theorem discount_rewards_length (gamma b : ℚ) (rs : List ℚ)
    (ds : List Bool) :
    (discount_rewards gamma rs ds b).length = min rs.length ds.length := by
  simpa [discount_rewards] using
    dfold_snd_length gamma (rs.zip ds) b []

/-- Unfolding `discount_rewards` at the back of the lists: processing the
last timestep first turns the bootstrap into the running return handed to
the remaining (earlier) timesteps. -/
theorem discount_rewards_concat (gamma r b : ℚ) (d : Bool) (rs : List ℚ)
    (ds : List Bool) (h : rs.length = ds.length) :
    discount_rewards gamma (rs ++ [r]) (ds ++ [d]) b =
      discount_rewards gamma rs ds (r + gamma * (if d then 0 else b)) ++
        [r + gamma * (if d then 0 else b)] := by
  simp only [discount_rewards, List.zip_append h, List.foldr_append]
  have : List.foldr (dstep gamma) (b, []) ([r].zip [d]) =
      (r + gamma * (if d then 0 else b), [r + gamma * (if d then 0 else b)]) := by
    simp [dstep]
  rw [this, dfold_state_append]

/-- `discountGo` with fuel `t` only reads positions below `t`, so longer
lists do not change its behaviour. -/
theorem discountGo_append (gamma : ℚ) (rs rs2 : List ℚ) (ds ds2 : List Bool) :
    ∀ t, t ≤ rs.length → t ≤ ds.length → ∀ R out,
      discountGo gamma (rs ++ rs2) (ds ++ ds2) t R out =
        discountGo gamma rs ds t R out := by
  intro t
  induction t with
  | zero => intro _ _ R out; rfl
  | succ t ih =>
      intro h1 h2 R out
      have e1 : (rs ++ rs2).getD t 0 = rs.getD t 0 :=
        List.getD_append rs rs2 0 t (by omega)
      have e2 : (ds ++ ds2).getD t false = ds.getD t false :=
        List.getD_append ds ds2 false t (by omega)
      simp only [discountGo, e1, e2]
      exact ih (by omega) (by omega) _ _

/-- The spec-modelled reverse pass agrees with the list-based reference
recurrence: running `discountGo` over all positions produces
`discount_rewards` followed by the prior output accumulator. -/
theorem discountGo_eq_discount_rewards (gamma : ℚ) :
    ∀ (rs : List ℚ) (ds : List Bool), rs.length = ds.length →
      ∀ R out, discountGo gamma rs ds rs.length R out =
        discount_rewards gamma rs ds R ++ out := by
  intro rs
  induction rs using List.reverseRecOn with
  | nil =>
      intro ds h R out
      have : ds = [] := List.eq_nil_of_length_eq_zero h.symm
      subst this; rfl
  | append_singleton rs r ih =>
      intro ds h R out
      have hne : ds ≠ [] := by
        intro hc; subst hc; simp at h
      obtain ⟨ds1, d, rfl⟩ : ∃ ds1 dl, ds = ds1 ++ [dl] :=
        ⟨ds.dropLast, ds.getLast hne, (List.dropLast_append_getLast hne).symm⟩
      have hlen : rs.length = ds1.length := by
        simpa using h
      have hget_r : (rs ++ [r]).getD rs.length 0 = r := by
        rw [List.getD_append_right _ _ _ _ (le_refl _)]
        simp
      have hget_d : (ds1 ++ [d]).getD rs.length false = d := by
        rw [hlen, List.getD_append_right _ _ _ _ (le_refl _)]
        simp
      have hstep : (rs ++ [r]).length = rs.length + 1 := by simp
      rw [hstep]
      simp only [discountGo, hget_r, hget_d]
      rw [discountGo_append gamma rs [r] ds1 [d] rs.length (le_refl _) hlen.le,
        ih ds1 hlen, discount_rewards_concat gamma r R d rs ds1 hlen]
      simp

/-- One step of the backward loop of `generalized_advantage_estimate`
(src/tests/rewards_tests.py lines 48-52): the state is
`(advantage, next_value, advantages)` and the element is
`(reward, (done, value))` for the timestep. -/
def gstep (gamma tau : ℚ) (rdv : ℚ × ℚ × ℚ) (acc : ℚ × ℚ × List ℚ) :
    ℚ × ℚ × List ℚ :=
  let r := rdv.1
  let d := rdv.2.1
  let v := rdv.2.2
  let advantage := acc.1
  let next_value := acc.2.1
  let out := acc.2.2
  let td_error := r + (1 - d) * gamma * next_value - v
  let advantage := advantage * tau * gamma * (1 - d) + td_error
  (advantage, v, advantage :: out)

/-- The backward loop of `generalized_advantage_estimate`
(src/tests/rewards_tests.py lines 46-53): a right fold over the zipped
`(rewards, dones, values)` sequence, starting from `advantage = 0` and the
caller-supplied `next_value`. -/
def gae_core (gamma tau : ℚ) (rewards dones values : List ℚ)
    (next_value : ℚ) : List ℚ :=
  ((rewards.zip (dones.zip values)).foldr (gstep gamma tau)
    (0, next_value, [])).2.2

/-- Translation of `generalized_advantage_estimate`
(src/tests/rewards_tests.py lines 38-53).  The Python `assert` on the three
lengths becomes an `Except.error` with the assertion's message. -/
def generalized_advantage_estimate (gamma tau : ℚ)
    (rewards dones values : List ℚ) (next_value : ℚ) :
    Except String (List ℚ) :=
  if values.length = rewards.length ∧ rewards.length = dones.length then
    Except.ok (gae_core gamma tau rewards dones values next_value)
  else
    Except.error "GAE needs as many rewards, values and dones."

/-- Modelled from the spec: `cherry/rewards.py` is not under src/, so the
reverse pass of `generalized_advantage` follows spec section 4.3 word for
word: "process t from T-1 down to 0, maintaining advantage initialized to 0
and a rolling next_value initialized to the caller-supplied bootstrap:
td_error = rewards[t] + (1 - dones[t]) * gamma * next_value - values[t];
advantage = advantage * tau * gamma * (1 - dones[t]) + td_error;
advantages[t] = advantage; next_value = values[t]". -/
def gaGo (gamma tau : ℚ) (rewards dones values : List ℚ) :
    ℕ → ℚ → ℚ → List ℚ → List ℚ
  | 0, _, _, out => out
  | t + 1, advantage, next_value, out =>
      let td_error := rewards.getD t 0 +
        (1 - dones.getD t 0) * gamma * next_value - values.getD t 0
      let advantage := advantage * tau * gamma * (1 - dones.getD t 0) +
        td_error
      gaGo gamma tau rewards dones values t advantage (values.getD t 0)
        (advantage :: out)

/-- Modelled from the spec: the `generalized_advantage` operation of spec
sections 4.3 and 7 — precondition `len(values) == len(rewards) == len(dones)`,
violations fail with a ShapeMismatch error, otherwise the reverse pass runs
over all T positions. -/
def generalized_advantage (gamma tau : ℚ) (rewards dones values : List ℚ)
    (next_value : ℚ) : Except String (List ℚ) :=
  if values.length = rewards.length ∧ rewards.length = dones.length then
    Except.ok (gaGo gamma tau rewards dones values rewards.length
      0 next_value [])
  else
    Except.error "ShapeMismatch"

/-- The advantages list produced by the backward fold has one entry per
processed timestep, on top of the initial accumulator's contents. -/
theorem gfold_out_length (gamma tau : ℚ) (l : List (ℚ × ℚ × ℚ))
    (A NV : ℚ) (L : List ℚ) :
    ((l.foldr (gstep gamma tau) (A, NV, L)).2.2).length =
      l.length + L.length := by
  induction l with
  | nil => simp
  | cons p l ih => simp [gstep, ih]; omega

/-- The initial output accumulator is just appended to the produced list. -/
theorem gfold_state_append (gamma tau : ℚ) (l : List (ℚ × ℚ × ℚ))
    (A NV : ℚ) (L : List ℚ) :
    l.foldr (gstep gamma tau) (A, NV, L) =
      ((l.foldr (gstep gamma tau) (A, NV, [])).1,
        (l.foldr (gstep gamma tau) (A, NV, [])).2.1,
        (l.foldr (gstep gamma tau) (A, NV, [])).2.2 ++ L) := by
  induction l with
  | nil => simp
  | cons p l ih => simp [List.foldr_cons, ih, gstep]

/-- The carried advantage after the whole fold is the head of the output
list (or the initial advantage if nothing was processed). -/
theorem gfold_fst_headD (gamma tau : ℚ) (l : List (ℚ × ℚ × ℚ)) (A NV : ℚ) :
    (l.foldr (gstep gamma tau) (A, NV, [])).1 =
      ((l.foldr (gstep gamma tau) (A, NV, [])).2.2).headD A := by
  cases l with
  | nil => rfl
  | cons p l => simp [gstep]

/-- The rolling `next_value` after the whole fold is the value of the first
processed timestep (or the initial one if nothing was processed). -/
theorem gfold_nv_head (gamma tau : ℚ) (l : List (ℚ × ℚ × ℚ)) (A NV : ℚ) :
    (l.foldr (gstep gamma tau) (A, NV, [])).2.1 =
      match l with
      | [] => NV
      | p :: _ => p.2.2 := by
  cases l with
  | nil => rfl
  | cons p l => simp [gstep]

/-- Unfolding `gae_core` at the front of equal-length lists: the carried
advantage folded into position 0 is the advantage recorded at position 1
(or 0 when the tail is empty), and the `next_value` seen at position 0 is
the value at position 1 (or the bootstrap when the tail is empty). -/
theorem gae_core_cons (gamma tau r d v nv : ℚ) (rs ds vs : List ℚ)
    (h1 : rs.length = ds.length) (h2 : rs.length = vs.length) :
    gae_core gamma tau (r :: rs) (d :: ds) (v :: vs) nv =
      ((gae_core gamma tau rs ds vs nv).headD 0 * tau * gamma * (1 - d) +
        (r + (1 - d) * gamma * (vs.headD nv) - v)) ::
      gae_core gamma tau rs ds vs nv := by
  have hA := gfold_fst_headD gamma tau (rs.zip (ds.zip vs)) 0 nv
  have hNV := gfold_nv_head gamma tau (rs.zip (ds.zip vs)) 0 nv
  have hhead : (rs.zip (ds.zip vs)).foldr (gstep gamma tau)
      (0, nv, []) |>.2.1 = vs.headD nv := by
    rw [hNV]
    cases rs with
    | nil =>
        have : vs = [] := List.eq_nil_of_length_eq_zero (h2.symm)
        subst this; rfl
    | cons r1 rs1 =>
        cases ds with
        | nil => simp at h1
        | cons d1 ds1 =>
            cases vs with
            | nil => simp at h2
            | cons v1 vs1 => rfl
  simp only [gae_core, List.zip_cons_cons, List.foldr_cons, gstep, ← hA,
    hhead]

/-- `gaGo` with fuel `t` only reads positions below `t`, so longer lists do
not change its behaviour. -/
theorem gaGo_append (gamma tau : ℚ) (rs rs2 ds ds2 vs vs2 : List ℚ) :
    ∀ t, t ≤ rs.length → t ≤ ds.length → t ≤ vs.length →
      ∀ A NV out,
      gaGo gamma tau (rs ++ rs2) (ds ++ ds2) (vs ++ vs2) t A NV out =
        gaGo gamma tau rs ds vs t A NV out := by
  intro t
  induction t with
  | zero => intro _ _ _ A NV out; rfl
  | succ t ih =>
      intro h1 h2 h3 A NV out
      have e1 : (rs ++ rs2).getD t 0 = rs.getD t 0 :=
        List.getD_append rs rs2 0 t (by omega)
      have e2 : (ds ++ ds2).getD t 0 = ds.getD t 0 :=
        List.getD_append ds ds2 0 t (by omega)
      have e3 : (vs ++ vs2).getD t 0 = vs.getD t 0 :=
        List.getD_append vs vs2 0 t (by omega)
      simp only [gaGo, e1, e2, e3]
      exact ih (by omega) (by omega) (by omega) _ _ _

/-- The spec-modelled reverse pass agrees with the list-based reference
recurrence: running `gaGo` over all positions produces the backward fold's
advantages followed by the prior output accumulator. -/
theorem gaGo_eq_gfold (gamma tau : ℚ) :
    ∀ (rs ds vs : List ℚ), rs.length = ds.length → rs.length = vs.length →
      ∀ A NV out, gaGo gamma tau rs ds vs rs.length A NV out =
        ((rs.zip (ds.zip vs)).foldr (gstep gamma tau) (A, NV, [])).2.2 ++
          out := by
  intro rs
  induction rs using List.reverseRecOn with
  | nil =>
      intro ds vs h1 h2 A NV out
      obtain rfl : ds = [] := List.eq_nil_of_length_eq_zero h1.symm
      obtain rfl : vs = [] := List.eq_nil_of_length_eq_zero h2.symm
      rfl
  | append_singleton rs r ih =>
      intro ds vs h1 h2 A NV out
      have hdne : ds ≠ [] := by intro hc; subst hc; simp at h1
      have hvne : vs ≠ [] := by intro hc; subst hc; simp at h2
      obtain ⟨ds1, d, rfl⟩ : ∃ l x, ds = l ++ [x] :=
        ⟨ds.dropLast, ds.getLast hdne, (List.dropLast_append_getLast hdne).symm⟩
      obtain ⟨vs1, v, rfl⟩ : ∃ l x, vs = l ++ [x] :=
        ⟨vs.dropLast, vs.getLast hvne, (List.dropLast_append_getLast hvne).symm⟩
      have hl1 : rs.length = ds1.length := by simpa using h1
      have hl2 : rs.length = vs1.length := by simpa using h2
      have hget_r : (rs ++ [r]).getD rs.length 0 = r := by
        rw [List.getD_append_right _ _ _ _ (le_refl _)]; simp
      have hget_d : (ds1 ++ [d]).getD rs.length 0 = d := by
        rw [hl1, List.getD_append_right _ _ _ _ (le_refl _)]; simp
      have hget_v : (vs1 ++ [v]).getD rs.length 0 = v := by
        rw [hl2, List.getD_append_right _ _ _ _ (le_refl _)]; simp
      have hstep : (rs ++ [r]).length = rs.length + 1 := by simp
      rw [hstep]
      simp only [gaGo, hget_r, hget_d, hget_v]
      rw [gaGo_append gamma tau rs [r] ds1 [d] vs1 [v] rs.length
        (le_refl _) hl1.le hl2.le, ih ds1 vs1 hl1 hl2]
      have hinner : (ds1 ++ [d]).zip (vs1 ++ [v]) =
          ds1.zip vs1 ++ [(d, v)] :=
        List.zip_append (hl1 ▸ hl2)
      have hzip : (rs ++ [r]).zip (ds1.zip vs1 ++ [(d, v)]) =
          rs.zip (ds1.zip vs1) ++ [(r, d, v)] :=
        List.zip_append (by simp [List.length_zip]; omega)
      rw [hinner, hzip, List.foldr_append]
      have hone : List.foldr (gstep gamma tau) (A, NV, []) [(r, d, v)] =
          (A * tau * gamma * (1 - d) +
            (r + (1 - d) * gamma * NV - v), v,
            [A * tau * gamma * (1 - d) + (r + (1 - d) * gamma * NV - v)]) := by
        simp [gstep]
      rw [hone]
      set A2 := A * tau * gamma * (1 - d) + (r + (1 - d) * gamma * NV - v)
        with hA2
      rw [gfold_state_append gamma tau (rs.zip (ds1.zip vs1)) A2 v [A2]]
      simp

/-- C1: for every scalar gamma, equal-length rewards and boolean dones of
length T, and every bootstrap, the `discount` operation equals the backward
recurrence of `discount_rewards` (running return initialized to the
bootstrap, reset to zero at a done flag before folding in the reward), and
the output has length T. -/
theorem discount_matches_recurrence (gamma bootstrap : ℚ) (rewards : List ℚ)
    (dones : List Bool) (h : rewards.length = dones.length) :
    discount gamma rewards dones bootstrap =
      discount_rewards gamma rewards dones bootstrap ∧
    (discount gamma rewards dones bootstrap).length = rewards.length := by
  have he := discountGo_eq_discount_rewards gamma rewards dones h bootstrap []
  constructor
  · simpa [discount] using he
  · rw [discount, he]
    simp [discount_rewards_length, h]

theorem discount_matches_recurrence_witness :
    ([(1 : ℚ), 2].length = [false, true].length) ∧
      (discount (1/2) [(1 : ℚ), 2] [false, true] 3 =
        discount_rewards (1/2) [(1 : ℚ), 2] [false, true] 3 ∧
      (discount (1/2) [(1 : ℚ), 2] [false, true] 3).length =
        [(1 : ℚ), 2].length) :=
  ⟨rfl, discount_matches_recurrence (1/2) 3 [1, 2] [false, true] rfl⟩

/-- C2: for every gamma, tau, bootstrap and equal-length rewards, dones,
values of length T, the `generalized_advantage` operation returns (without
error) exactly the backward recurrence of `gae_core` (advantage initialized
to 0, rolling next_value initialized to the bootstrap, td_error and
advantage updated as in the source loop), and the output has length T. -/
theorem generalized_advantage_matches_recurrence (gamma tau nv : ℚ)
    (rewards dones values : List ℚ)
    (h1 : rewards.length = dones.length)
    (h2 : rewards.length = values.length) :
    generalized_advantage gamma tau rewards dones values nv =
      Except.ok (gae_core gamma tau rewards dones values nv) ∧
    (gae_core gamma tau rewards dones values nv).length = rewards.length := by
  constructor
  · rw [generalized_advantage, if_pos ⟨h2.symm, h1⟩]
    rw [gaGo_eq_gfold gamma tau rewards dones values h1 h2 0 nv []]
    simp [gae_core]
  · rw [gae_core]
    rw [gfold_out_length]
    simp [List.length_zip]
    omega

theorem generalized_advantage_matches_recurrence_witness :
    ([(1 : ℚ), 2].length = [(0 : ℚ), 1].length ∧
      [(1 : ℚ), 2].length = [(5 : ℚ), 7].length) ∧
      (generalized_advantage (1/2) (9/10) [(1 : ℚ), 2] [0, 1] [5, 7] 3 =
        Except.ok (gae_core (1/2) (9/10) [(1 : ℚ), 2] [0, 1] [5, 7] 3) ∧
      (gae_core (1/2) (9/10) [(1 : ℚ), 2] [0, 1] [5, 7] 3).length =
        [(1 : ℚ), 2].length) :=
  ⟨⟨rfl, rfl⟩,
    generalized_advantage_matches_recurrence (1/2) (9/10) 3
      [1, 2] [0, 1] [5, 7] rfl rfl⟩

/-- C7: `generalized_advantage` succeeds exactly when
`len(values) == len(rewards) == len(dones)`; any violation yields the
ShapeMismatch error (and the source's reference implementation
`generalized_advantage_estimate`, whose assert guards the same lengths,
succeeds under exactly the same condition). -/
theorem generalized_advantage_shape_check (gamma tau nv : ℚ)
    (rewards dones values : List ℚ) :
    ((generalized_advantage gamma tau rewards dones values nv).isOk =
        true ↔
      (values.length = rewards.length ∧ rewards.length = dones.length)) ∧
    (generalized_advantage gamma tau rewards dones values nv =
        Except.error "ShapeMismatch" ↔
      ¬ (values.length = rewards.length ∧ rewards.length = dones.length)) ∧
    ((generalized_advantage_estimate gamma tau rewards dones values
        nv).isOk = true ↔
      (values.length = rewards.length ∧ rewards.length = dones.length)) := by
  unfold generalized_advantage generalized_advantage_estimate
  by_cases h : values.length = rewards.length ∧ rewards.length = dones.length
  · simp [h, Except.isOk, Except.toBool]
  · simp [h, Except.isOk, Except.toBool]

/-- C5: with gamma = 0.5, rewards [8,8,8,8,8], dones false except at the
last position, and bootstrap 0, the discount operation (both the
spec-modelled `discount` and the source recurrence `discount_rewards`)
returns exactly [15.5, 15.0, 14.0, 12.0, 8.0]. -/
theorem discount_concrete_example :
    discount_rewards (1/2) [8, 8, 8, 8, 8] [false, false, false, false, true]
        0 = [15.5, 15.0, 14.0, 12.0, 8.0] ∧
    discount (1/2) [8, 8, 8, 8, 8] [false, false, false, false, true] 0 =
      [15.5, 15.0, 14.0, 12.0, 8.0] := by
  constructor
  · norm_num [discount_rewards, dstep]
  · norm_num [discount, discountGo]

/-- C3: for a 5-transition buffer whose last transition is the only terminal
one, with D the full discounted output (bootstrap 0), discounting the
wrap-around rearrangement replay[2:] + replay[:3] with bootstrap D[3] yields
exactly D[2:] followed by D[:3]. -/
theorem discount_wrap_overlap (gamma r0 r1 r2 r3 r4 : ℚ) :
    discount_rewards gamma [r2, r3, r4, r0, r1, r2]
        [false, false, true, false, false, false]
        ((discount_rewards gamma [r0, r1, r2, r3, r4]
          [false, false, false, false, true] 0).getD 3 0) =
      (discount_rewards gamma [r0, r1, r2, r3, r4]
        [false, false, false, false, true] 0).drop 2 ++
      (discount_rewards gamma [r0, r1, r2, r3, r4]
        [false, false, false, false, true] 0).take 3 := by
  simp [discount_rewards, dstep]

/-- C4: no reward from after a done=true boundary leaks backward: the
discount output at the positions up to and including an internal terminal
index is the same whether the input is truncated there or extended with
arbitrary further timesteps and an arbitrary bootstrap. -/
theorem discount_episode_isolation (gamma b b2 rk : ℚ) (r1 r2 : List ℚ)
    (d1 d2 : List Bool) (h1 : r1.length = d1.length)
    (h2 : r2.length = d2.length) :
    (discount_rewards gamma ((r1 ++ [rk]) ++ r2) ((d1 ++ [true]) ++ d2)
        b).take (r1.length + 1) =
      discount_rewards gamma (r1 ++ [rk]) (d1 ++ [true]) b2 := by
  induction r1 generalizing d1 with
  | nil =>
      cases d1 with
      | nil =>
          simp only [List.nil_append, List.singleton_append,
            discount_rewards_cons]
          simp [discount_rewards_nil]
      | cons dh dt => simp at h1
  | cons r r1 ih =>
      cases d1 with
      | nil => simp at h1
      | cons d d1 =>
          have h1' : r1.length = d1.length := by simpa using h1
          have e1 : ((r :: r1) ++ [rk]) ++ r2 = r :: ((r1 ++ [rk]) ++ r2) := by
            simp
          have e2 : ((d :: d1) ++ [true]) ++ d2 =
              d :: ((d1 ++ [true]) ++ d2) := by simp
          have e3 : (r :: r1) ++ [rk] = r :: (r1 ++ [rk]) := by simp
          have e4 : (d :: d1) ++ [true] = d :: (d1 ++ [true]) := by simp
          rw [e1, e2, e3, e4, discount_rewards_cons, discount_rewards_cons]
          have hih := ih d1 h1'
          have hpos : 0 < (discount_rewards gamma ((r1 ++ [rk]) ++ r2)
              ((d1 ++ [true]) ++ d2) b).length := by
            rw [discount_rewards_length]
            simp
          obtain ⟨x, rest, hx⟩ : ∃ x rest,
              discount_rewards gamma ((r1 ++ [rk]) ++ r2)
                ((d1 ++ [true]) ++ d2) b = x :: rest := by
            cases hc : discount_rewards gamma ((r1 ++ [rk]) ++ r2)
                ((d1 ++ [true]) ++ d2) b with
            | nil => rw [hc] at hpos; simp at hpos
            | cons x rest => exact ⟨x, rest, rfl⟩
          rw [hx] at hih ⊢
          have hhead : (discount_rewards gamma (r1 ++ [rk])
              (d1 ++ [true]) b2).headD b2 = x := by
            rw [← hih]
            simp
          simp only [List.length_cons, List.take_succ_cons, hih, hhead]
          simp

theorem discount_episode_isolation_witness :
    ([(5 : ℚ)].length = [false].length ∧ [(7 : ℚ)].length = [true].length) ∧
      (discount_rewards (1/2) (([(5 : ℚ)] ++ [6]) ++ [7])
          (([false] ++ [true]) ++ [true]) 9).take ([(5 : ℚ)].length + 1) =
        discount_rewards (1/2) ([(5 : ℚ)] ++ [6]) ([false] ++ [true]) 11 :=
  ⟨⟨rfl, rfl⟩,
    discount_episode_isolation (1/2) 9 11 6 [5] [7] [false] [true] rfl rfl⟩

/-- Helper for C6: the head of the discounted output of a nonempty reward
sequence terminated only at its last position is the geometric sum of the
rewards. -/
theorem discount_geometric_aux (gamma : ℚ) :
    ∀ (rs : List ℚ) (r : ℚ),
      (discount_rewards gamma (r :: rs)
          (List.replicate ((r :: rs).length - 1) false ++ [true]) 0).headD 0 =
        ∑ i ∈ Finset.range (r :: rs).length,
          gamma ^ i * (r :: rs).getD i 0 := by
  intro rs
  induction rs with
  | nil =>
      intro r
      simp [discount_rewards_cons, discount_rewards_nil]
  | cons r1 rs1 ih =>
      intro r
      have hdones : List.replicate ((r :: r1 :: rs1).length - 1) false ++
          [true] = false :: (List.replicate ((r1 :: rs1).length - 1) false ++
            [true]) := by
        simp [List.replicate_succ]
      rw [hdones, discount_rewards_cons]
      have hpos : 0 < (discount_rewards gamma (r1 :: rs1)
          (List.replicate ((r1 :: rs1).length - 1) false ++ [true])
          0).length := by
        rw [discount_rewards_length]
        simp
      have hheadD : (discount_rewards gamma (r1 :: rs1)
          (List.replicate ((r1 :: rs1).length - 1) false ++ [true])
          0).headD 0 =
          ∑ i ∈ Finset.range (r1 :: rs1).length,
            gamma ^ i * (r1 :: rs1).getD i 0 := ih r1
      have hsum : ∑ i ∈ Finset.range (r :: r1 :: rs1).length,
          gamma ^ i * (r :: r1 :: rs1).getD i 0 =
          (∑ i ∈ Finset.range (r1 :: rs1).length,
            gamma ^ (i + 1) * (r1 :: rs1).getD i 0) + r := by
        rw [List.length_cons, Finset.sum_range_succ']
        simp
      rw [List.headD_cons, hheadD, hsum]
      have : ∑ i ∈ Finset.range (r1 :: rs1).length,
          gamma ^ (i + 1) * (r1 :: rs1).getD i 0 =
          gamma * ∑ i ∈ Finset.range (r1 :: rs1).length,
            gamma ^ i * (r1 :: rs1).getD i 0 := by
        rw [Finset.mul_sum]
        refine Finset.sum_congr rfl ?_
        intro i _
        ring
      rw [this]
      simp
      ring

/-- C6: for gamma in [0,1) and a reward sequence with a single terminal
transition at the last position, discount with bootstrap 0 gives, at
position 0, the geometric sum of the rewards. -/
theorem discount_geometric (gamma : ℚ) (hg0 : 0 ≤ gamma) (hg1 : gamma < 1)
    (rewards : List ℚ) (hne : rewards ≠ []) :
    (discount_rewards gamma rewards
        (List.replicate (rewards.length - 1) false ++ [true]) 0).headD 0 =
      ∑ i ∈ Finset.range rewards.length, gamma ^ i * rewards.getD i 0 := by
  cases rewards with
  | nil => exact absurd rfl hne
  | cons r rs => exact discount_geometric_aux gamma rs r

theorem discount_geometric_witness :
    ((0 : ℚ) ≤ 1/2 ∧ (1/2 : ℚ) < 1 ∧ [(8 : ℚ), 8] ≠ []) ∧
      (discount_rewards (1/2) [(8 : ℚ), 8]
          (List.replicate ([(8 : ℚ), 8].length - 1) false ++ [true])
          0).headD 0 =
        ∑ i ∈ Finset.range [(8 : ℚ), 8].length,
          (1/2 : ℚ) ^ i * [(8 : ℚ), 8].getD i 0 :=
  ⟨⟨by norm_num, by norm_num, by simp⟩,
    discount_geometric (1/2) (by norm_num) (by norm_num) [8, 8] (by simp)⟩

/-- Helper for C8: with tau = 0 the backward recurrence records, at every
position, exactly the one-step TD error, where the value used for the next
step is values[t+1] inside the window and the caller-supplied bootstrap at
the last position. -/
theorem gae_core_tau_zero (gamma : ℚ) :
    ∀ (rewards dones values : List ℚ) (nv : ℚ) (t : ℕ),
      rewards.length = dones.length → rewards.length = values.length →
      t < rewards.length →
      (gae_core gamma 0 rewards dones values nv).getD t 0 =
        rewards.getD t 0 + (1 - dones.getD t 0) * gamma *
          (if t + 1 < rewards.length then values.getD (t + 1) 0 else nv) -
        values.getD t 0 := by
  intro rewards
  induction rewards with
  | nil => intro dones values nv t h1 h2 ht; simp at ht
  | cons r rs ih =>
      intro dones values nv t h1 h2 ht
      cases dones with
      | nil => simp at h1
      | cons d ds =>
          cases values with
          | nil => simp at h2
          | cons v vs =>
              have h1' : rs.length = ds.length := by simpa using h1
              have h2' : rs.length = vs.length := by simpa using h2
              rw [gae_core_cons gamma 0 r d v nv rs ds vs h1' h2']
              cases t with
              | zero =>
                  cases rs with
                  | nil =>
                      obtain rfl : vs = [] :=
                        List.eq_nil_of_length_eq_zero h2'.symm
                      simp
                  | cons r1 rs1 =>
                      cases vs with
                      | nil => simp at h2'
                      | cons v1 vs1 =>
                          simp
              | succ t' =>
                  have ht' : t' < rs.length := by
                    simpa using ht
                  have := ih ds vs nv t' h1' h2' ht'
                  simp only [List.getD_cons_succ]
                  rw [this]
                  have hif : (t' + 1 < rs.length) =
                      (t' + 1 + 1 < (r :: rs).length) := by
                    simp
                  by_cases hc : t' + 1 < rs.length
                  · rw [if_pos hc, if_pos (by simpa using hc)]
                  · rw [if_neg hc, if_neg (by simpa using hc)]

/-- C8: with tau = 0, the `generalized_advantage` operation returns, at
every position t, the one-step TD error
rewards[t] + (1 - dones[t]) * gamma * v - values[t], where v is
values[t+1] for t < T-1 and the caller-supplied next_value for t = T-1. -/
theorem generalized_advantage_tau_zero (gamma nv : ℚ)
    (rewards dones values : List ℚ) (t : ℕ)
    (h1 : rewards.length = dones.length)
    (h2 : rewards.length = values.length) (ht : t < rewards.length) :
    generalized_advantage gamma 0 rewards dones values nv =
      Except.ok (gae_core gamma 0 rewards dones values nv) ∧
    (gae_core gamma 0 rewards dones values nv).getD t 0 =
      rewards.getD t 0 + (1 - dones.getD t 0) * gamma *
        (if t + 1 < rewards.length then values.getD (t + 1) 0 else nv) -
      values.getD t 0 := by
  constructor
  · rw [generalized_advantage, if_pos ⟨h2.symm, h1⟩]
    rw [gaGo_eq_gfold gamma 0 rewards dones values h1 h2 0 nv []]
    simp [gae_core]
  · exact gae_core_tau_zero gamma rewards dones values nv t h1 h2 ht

theorem generalized_advantage_tau_zero_witness :
    ([(1 : ℚ), 2].length = [(0 : ℚ), 1].length ∧
      [(1 : ℚ), 2].length = [(5 : ℚ), 7].length ∧
      0 < [(1 : ℚ), 2].length) ∧
      (generalized_advantage (1/2) 0 [(1 : ℚ), 2] [0, 1] [5, 7] 3 =
        Except.ok (gae_core (1/2) 0 [(1 : ℚ), 2] [0, 1] [5, 7] 3) ∧
      (gae_core (1/2) 0 [(1 : ℚ), 2] [0, 1] [5, 7] 3).getD 0 0 =
        [(1 : ℚ), 2].getD 0 0 + (1 - [(0 : ℚ), 1].getD 0 0) * (1/2) *
          (if 0 + 1 < [(1 : ℚ), 2].length then [(5 : ℚ), 7].getD (0 + 1) 0
            else 3) -
        [(5 : ℚ), 7].getD 0 0) :=
  ⟨⟨rfl, rfl, by norm_num⟩,
    generalized_advantage_tau_zero (1/2) 3 [1, 2] [0, 1] [5, 7] 0
      rfl rfl (by norm_num)⟩

/-- One recorded (reward, done) pair of `Logger`
(src/cherry/envs/logger_wrapper.py).  `step` appends the reward and the done
flag together, so the two histories are modelled as one paired list.  A
`scalar` entry is a Python `bool` done with a numeric reward; a `batch`
entry is an array done with an array reward (as for VecEnv), whose `.flat`
views are modelled as the flattened element lists. -/
inductive StepEntry where
  | scalar : ℚ → Bool → StepEntry
  | batch : List ℚ → List ℚ → StepEntry

/-- The done flag actually tested by the Logger loops: the Python bool
itself, or `bool(d.flat[0])` for an array (truthiness of the first flattened
element). -/
def entry_done : StepEntry → Bool
  | StepEntry.scalar _ d => d
  | StepEntry.batch _ d => decide (d.headD 0 ≠ 0)

/-- The reward actually accumulated by the Logger loops: the scalar reward
itself, or `float(r.flat[0])` for an array. -/
def entry_reward : StepEntry → ℚ
  | StepEntry.scalar r _ => r
  | StepEntry.batch r _ => r.headD 0

/-- One iteration of the loop of `Logger._episodes_length_rewards`
(src/cherry/envs/logger_wrapper.py lines 49-60): the state is
`(accum, length, episode_rewards, episode_lengths)`; a non-terminal step
accumulates its reward and one unit of length, a terminal step appends the
accumulated episode and resets. -/
def elr_step (acc : ℚ × ℕ × List ℚ × List ℕ) (e : StepEntry) :
    ℚ × ℕ × List ℚ × List ℕ :=
  let accum := acc.1
  let len := acc.2.1
  let eprs := acc.2.2.1
  let epls := acc.2.2.2
  let d := entry_done e
  let r := entry_reward e
  if !d then (accum + r, len + 1, eprs, epls)
  else (0, 0, eprs ++ [accum], epls ++ [len])

/-- Translation of `Logger._episodes_length_rewards`
(src/cherry/envs/logger_wrapper.py lines 39-64): fold the loop over the
recorded steps, then append the trailing in-progress episode when its
length is positive. -/
def episodes_length_rewards (entries : List StepEntry) :
    List ℚ × List ℕ :=
  let fin := entries.foldl elr_step (0, 0, [], [])
  if fin.2.1 > 0 then (fin.2.2.1 ++ [fin.1], fin.2.2.2 ++ [fin.2.1])
  else (fin.2.2.1, fin.2.2.2)

/-- The reversed-enumerate scan of `Logger._episodes_stats`
(src/cherry/envs/logger_wrapper.py lines 68-77): the state is
`(start, end, count)`; index `i` runs from the last position down to 0, and
at each done flag the episode count rises, `end` is set once (while still
zero) and `start` is moved past `i` once enough episodes were seen. -/
def statsScanGo (dones : List StepEntry) (ep_interval : ℕ) :
    ℕ → ℕ × ℕ × ℕ → ℕ × ℕ × ℕ
  | 0, s => s
  | i + 1, s =>
      let start := s.1
      let stop := s.2.1
      let count := s.2.2
      let s2 :=
        if entry_done (dones.getD i (StepEntry.scalar 0 false)) then
          let count := count + 1
          let stop := if stop = 0 then i else stop
          let start := if ep_interval + 1 ≤ count then i + 1 else start
          (start, stop, count)
        else (start, stop, count)
      statsScanGo dones ep_interval i s2

/-- Translation of `Logger._episodes_stats`
(src/cherry/envs/logger_wrapper.py lines 66-86): find the window of the last
`ep_interval` episodes by the reversed scan, slice the recorded histories to
`[start:end]`, compute the per-episode rewards and lengths there, and
substitute `[0.0]` (resp. `[0]`) for empty results. -/
def episodes_stats (ep_interval : ℕ) (entries : List StepEntry) :
    List ℚ × List ℕ :=
  let s := statsScanGo entries ep_interval entries.length (0, 0, 0)
  let sliced := (entries.take s.2.1).drop s.1
  let res := episodes_length_rewards sliced
  (if res.1.length ≠ 0 then res.1 else [0],
    if res.2.length ≠ 0 then res.2 else [0])

/-- What the Logger statistics can observe of one step: the first flattened
reward element and the first flattened done element. -/
def normalize (e : StepEntry) : ℚ × Bool := (entry_reward e, entry_done e)

theorem elr_step_congr (acc : ℚ × ℕ × List ℚ × List ℕ) (e e2 : StepEntry)
    (h : normalize e = normalize e2) : elr_step acc e = elr_step acc e2 := by
  have h1 : entry_reward e = entry_reward e2 := congrArg Prod.fst h
  have h2 : entry_done e = entry_done e2 := congrArg Prod.snd h
  simp [elr_step, h1, h2]

theorem elr_foldl_congr :
    ∀ (h1 h2 : List StepEntry), h1.map normalize = h2.map normalize →
      ∀ acc, h1.foldl elr_step acc = h2.foldl elr_step acc := by
  intro h1
  induction h1 with
  | nil =>
      intro h2 hm acc
      cases h2 with
      | nil => rfl
      | cons e es => simp at hm
  | cons e es ih =>
      intro h2 hm acc
      cases h2 with
      | nil => simp at hm
      | cons e2 es2 =>
          simp only [List.map_cons, List.cons.injEq] at hm
          simp only [List.foldl_cons, elr_step_congr acc e e2 hm.1]
          exact ih es2 hm.2 _

theorem entry_done_getD_congr (h1 h2 : List StepEntry)
    (hm : h1.map normalize = h2.map normalize) (i : ℕ) :
    entry_done (h1.getD i (StepEntry.scalar 0 false)) =
      entry_done (h2.getD i (StepEntry.scalar 0 false)) := by
  have g1 : (h1.map normalize).getD i
      (normalize (StepEntry.scalar 0 false)) =
      normalize (h1.getD i (StepEntry.scalar 0 false)) :=
    h1.getD_map (StepEntry.scalar 0 false) normalize
  have g2 : (h2.map normalize).getD i
      (normalize (StepEntry.scalar 0 false)) =
      normalize (h2.getD i (StepEntry.scalar 0 false)) :=
    h2.getD_map (StepEntry.scalar 0 false) normalize
  have hnm : normalize (h1.getD i (StepEntry.scalar 0 false)) =
      normalize (h2.getD i (StepEntry.scalar 0 false)) := by
    rw [← g1, ← g2, hm]
  exact congrArg Prod.snd hnm

theorem statsScanGo_congr (h1 h2 : List StepEntry) (k : ℕ)
    (hm : h1.map normalize = h2.map normalize) :
    ∀ fuel s, statsScanGo h1 k fuel s = statsScanGo h2 k fuel s := by
  intro fuel
  induction fuel with
  | zero => intro s; rfl
  | succ i ih =>
      intro s
      simp only [statsScanGo, entry_done_getD_congr h1 h2 hm i]
      exact ih _

/-- C10: the Logger's episode statistics depend only on the first flattened
element of each recorded reward/done entry: two histories agreeing on those
at every step give identical `_episodes_length_rewards` and
`_episodes_stats` results. -/
theorem logger_first_element_only (h1 h2 : List StepEntry) (k : ℕ)
    (hm : h1.map normalize = h2.map normalize) :
    episodes_length_rewards h1 = episodes_length_rewards h2 ∧
    episodes_stats k h1 = episodes_stats k h2 := by
  have hlen : h1.length = h2.length := by
    have := congrArg List.length hm
    simpa using this
  constructor
  · rw [episodes_length_rewards, episodes_length_rewards,
      elr_foldl_congr h1 h2 hm]
  · rw [episodes_stats, episodes_stats, statsScanGo_congr h1 h2 k hm, hlen]
    have hslice : ∀ a b : ℕ,
        ((h1.take a).drop b).map normalize =
          ((h2.take a).drop b).map normalize := by
      intro a b
      simp only [List.map_drop, List.map_take, hm]
    have := elr_foldl_congr _ _
      (hslice (statsScanGo h2 k h2.length (0, 0, 0)).2.1
        (statsScanGo h2 k h2.length (0, 0, 0)).1)
    simp only [episodes_length_rewards, this]

theorem logger_first_element_only_witness :
    ([StepEntry.batch [2, 9] [0], StepEntry.scalar 3 true].map normalize =
      [StepEntry.scalar 2 false, StepEntry.batch [3, 7] [5, 0]].map
        normalize) ∧
      (episodes_length_rewards
          [StepEntry.batch [2, 9] [0], StepEntry.scalar 3 true] =
        episodes_length_rewards
          [StepEntry.scalar 2 false, StepEntry.batch [3, 7] [5, 0]] ∧
      episodes_stats 10
          [StepEntry.batch [2, 9] [0], StepEntry.scalar 3 true] =
        episodes_stats 10
          [StepEntry.scalar 2 false, StepEntry.batch [3, 7] [5, 0]]) :=
  ⟨by simp [normalize, entry_reward, entry_done],
    logger_first_element_only _ _ 10
      (by simp [normalize, entry_reward, entry_done])⟩

/-- The episode lists in the loop state are write-only accumulators: their
initial contents are just a prefix of the final contents. -/
theorem elr_foldl_state (es : List StepEntry) :
    ∀ (a : ℚ) (n : ℕ) (R : List ℚ) (L : List ℕ),
      es.foldl elr_step (a, n, R, L) =
        ((es.foldl elr_step (a, n, [], [])).1,
          (es.foldl elr_step (a, n, [], [])).2.1,
          R ++ (es.foldl elr_step (a, n, [], [])).2.2.1,
          L ++ (es.foldl elr_step (a, n, [], [])).2.2.2) := by
  induction es with
  | nil => intro a n R L; simp
  | cons e es ih =>
      intro a n R L
      simp only [List.foldl_cons]
      by_cases hd : entry_done e
      · have hstep : ∀ (R0 : List ℚ) (L0 : List ℕ),
            elr_step (a, n, R0, L0) e = (0, 0, R0 ++ [a], L0 ++ [n]) := by
          intro R0 L0
          simp [elr_step, hd]
        rw [hstep, hstep, ih 0 0 (R ++ [a]) (L ++ [n]),
          ih 0 0 ([] ++ [a]) ([] ++ [n])]
        simp
      · have hstep : ∀ (R0 : List ℚ) (L0 : List ℕ),
            elr_step (a, n, R0, L0) e =
              (a + entry_reward e, n + 1, R0, L0) := by
          intro R0 L0
          simp [elr_step, hd]
        rw [hstep, hstep]
        exact ih _ _ R L

/-- Prepending a terminal step records one empty episode (reward 0, length
0) in front of whatever the remaining steps produce: its reward is dropped
and it contributes no length. -/
theorem elr_prepend_terminal (r : ℚ) (rest : List StepEntry) :
    episodes_length_rewards (StepEntry.scalar r true :: rest) =
      (0 :: (episodes_length_rewards rest).1,
        0 :: (episodes_length_rewards rest).2) := by
  have hstep : elr_step (0, 0, [], []) (StepEntry.scalar r true) =
      (0, 0, [0], [0]) := by
    simp [elr_step, entry_done]
  rw [episodes_length_rewards, List.foldl_cons, hstep,
    elr_foldl_state rest 0 0 [0] [0], episodes_length_rewards]
  by_cases hn : (rest.foldl elr_step (0, 0, [], [])).2.1 > 0
  · simp [hn]
  · simp [hn]

/-- A run of non-terminal steps only accumulates its rewards and its
length. -/
theorem elr_foldl_no_done :
    ∀ (es : List StepEntry), (∀ e ∈ es, entry_done e = false) →
      ∀ (a : ℚ) (n : ℕ) (R : List ℚ) (L : List ℕ),
        es.foldl elr_step (a, n, R, L) =
          (a + (es.map entry_reward).sum, n + es.length, R, L) := by
  intro es
  induction es with
  | nil => intro _ a n R L; simp
  | cons e es ih =>
      intro hnd a n R L
      have hd : entry_done e = false := hnd e (by simp)
      have hstep : elr_step (a, n, R, L) e =
          (a + entry_reward e, n + 1, R, L) := by
        simp [elr_step, hd]
      simp only [List.foldl_cons, hstep]
      rw [ih (fun x hx => hnd x (by simp [hx])) _ _ R L]
      simp only [List.map_cons, List.sum_cons, List.length_cons,
        Prod.mk.injEq]
      refine ⟨by ring, ?_⟩
      simp only [Prod.mk.injEq, and_true]
      omega

/-- C9: a terminal step contributes neither its reward nor a unit of length
(the episode it closes gets only what the non-terminal steps before it
accumulated); after a history whose last step (if any) is terminal, a
trailing run of non-terminal steps is reported as exactly one additional
in-progress episode holding the run's rewards and length; and a sequence of
n all-terminal steps yields n episodes of reward 0 and length 0. -/
theorem logger_episode_accumulation (r : ℚ) (rest : List StepEntry)
    (hist run : List StepEntry) (hrne : run ≠ [])
    (hrnd : ∀ e ∈ run, entry_done e = false)
    (hlast : ∀ e, hist.getLast? = some e → entry_done e = true)
    (rs : List ℚ) :
    episodes_length_rewards (StepEntry.scalar r true :: rest) =
      (0 :: (episodes_length_rewards rest).1,
        0 :: (episodes_length_rewards rest).2) ∧
    episodes_length_rewards (hist ++ run) =
      ((episodes_length_rewards hist).1 ++ [(run.map entry_reward).sum],
        (episodes_length_rewards hist).2 ++ [run.length]) ∧
    episodes_length_rewards (rs.map (fun x => StepEntry.scalar x true)) =
      (List.replicate rs.length 0, List.replicate rs.length 0) := by
  have hpos : 0 < run.length := List.length_pos.mpr hrne
  refine ⟨elr_prepend_terminal r rest, ?_, ?_⟩
  · cases hist using List.reverseRecOn with
    | nil =>
        rw [List.nil_append, episodes_length_rewards,
          elr_foldl_no_done run hrnd 0 0 [] []]
        simp [episodes_length_rewards, hpos]
    | append_singleton h0 e =>
        have hde : entry_done e = true := hlast e (List.getLast?_concat h0)
        have hstepe : ∀ s : ℚ × ℕ × List ℚ × List ℕ,
            elr_step s e = (0, 0, s.2.2.1 ++ [s.1], s.2.2.2 ++ [s.2.1]) := by
          intro s
          simp [elr_step, hde]
        have hfold1 : List.foldl elr_step (0, 0, [], []) (h0 ++ [e]) =
            elr_step (List.foldl elr_step (0, 0, [], []) h0) e := by
          rw [List.foldl_append]
          rfl
        have hfold2 : List.foldl elr_step (0, 0, [], [])
            ((h0 ++ [e]) ++ run) =
            List.foldl elr_step
              (elr_step (List.foldl elr_step (0, 0, [], []) h0) e) run := by
          rw [List.foldl_append, hfold1]
        simp only [episodes_length_rewards, hfold2, hfold1, hstepe,
          elr_foldl_no_done run hrnd 0 0 _ _]
        simp [hpos]
  · induction rs with
    | nil => rfl
    | cons x rs ihr =>
        simp only [List.map_cons, elr_prepend_terminal, ihr,
          List.length_cons, List.replicate_succ]

theorem logger_episode_accumulation_witness :
    ([StepEntry.scalar 2 false] ≠ [] ∧
      (∀ e ∈ [StepEntry.scalar 2 false], entry_done e = false) ∧
      (∀ e, [StepEntry.scalar 5 true].getLast? = some e →
        entry_done e = true)) ∧
      (episodes_length_rewards
          (StepEntry.scalar 1 true :: [StepEntry.scalar 2 false]) =
        (0 :: (episodes_length_rewards [StepEntry.scalar 2 false]).1,
          0 :: (episodes_length_rewards [StepEntry.scalar 2 false]).2) ∧
      episodes_length_rewards
          ([StepEntry.scalar 5 true] ++ [StepEntry.scalar 2 false]) =
        ((episodes_length_rewards [StepEntry.scalar 5 true]).1 ++
            [([StepEntry.scalar 2 false].map entry_reward).sum],
          (episodes_length_rewards [StepEntry.scalar 5 true]).2 ++
            [[StepEntry.scalar 2 false].length]) ∧
      episodes_length_rewards
          ([(3 : ℚ), 4].map (fun x => StepEntry.scalar x true)) =
        (List.replicate [(3 : ℚ), 4].length 0,
          List.replicate [(3 : ℚ), 4].length 0)) :=
  ⟨⟨by simp, by simp [entry_done],
      by intro e he; simp at he; subst he; rfl⟩,
    logger_episode_accumulation 1 [StepEntry.scalar 2 false]
      [StepEntry.scalar 5 true] [StepEntry.scalar 2 false] (by simp)
      (by simp [entry_done])
      (by intro e he; simp at he; subst he; rfl) [3, 4]⟩

end Cherry
